import Mathlib

/-!
Verification of the restaurant finance bot (`main.py`, `db/database.py`).

The development shallowly embeds the amount parser, the conversation state
machine handlers, the ledger store (`users` / `transactions` tables) and the
report / export aggregation queries as executable Lean functions, and proves
the specification's claims about them.  Monetary amounts are modelled as
rationals (the exact decimal reading of the stored values); timestamps are
modelled by an integer day (the `DATE(created_at)` projection used by the
daily / weekly queries) together with a natural-number timestamp (the full
`created_at` value compared by the monthly query).
-/

namespace FinanceBot

/-! ## Amount parsing (`main.py`, `parse_amount`) -/

/-- Characters kept by `re.sub(r'[^\d.,]', '', text)`: digits, comma, period. -/
def keepChar (c : Char) : Bool :=
  c.isDigit || c == ',' || c == '.'

/-- `text.replace(',', '.', 1)` on a character list: replace the first comma
by a period, leave everything else alone. -/
def replaceFirstComma : List Char → List Char
  | [] => []
  | c :: rest => if c = ',' then '.' :: rest else c :: replaceFirstComma rest

/-- Python `str.split('.')` on a character list: the (nonempty) list of
period-separated segments, empty segments included. -/
def splitOnDot : List Char → List (List Char)
  | [] => [[]]
  | c :: rest =>
    if c = '.' then [] :: splitOnDot rest
    else
      match splitOnDot rest with
      | p :: ps => (c :: p) :: ps
      | [] => [[c]]

/-- Value of a digit string read in base 10 (`foldl`, as positional reading). -/
def natVal (l : List Char) : Nat :=
  l.foldl (fun acc c => 10 * acc + (c.toNat - 48)) 0

/-- `l` consists of digits only. -/
def isDigits (l : List Char) : Bool :=
  l.all Char.isDigit

/-- Model of Python `float()` restricted to strings drawn from digits, commas
and periods (the only characters `parse_amount` can pass to it): at most one
period, no commas, at least one digit; the value is the exact decimal
reading. -/
def pyFloat (l : List Char) : Option ℚ :=
  match splitOnDot l with
  | [p] => if isDigits p && !p.isEmpty then some (natVal p) else none
  | [a, b] =>
      if isDigits a && isDigits b && (!a.isEmpty || !b.isEmpty) then
        some ((natVal a : ℚ) + (natVal b : ℚ) / 10 ^ b.length)
      else none
  | _ => none

/-- `parse_amount` (`main.py` lines 43-54): strip every character that is not
a digit, comma or period; fail on an empty result; replace the first comma by
a period; if splitting on periods yields more than two segments, keep the
first segment as the integer part and concatenate all remaining segments into
the fractional part; convert with `float`.  Failure (`ValueError`) is `none`. -/
def parse_amount (text : String) : Option ℚ :=
  if text.data.isEmpty then none
  else if (text.data.filter keepChar).isEmpty then none
  else
    match splitOnDot (replaceFirstComma (text.data.filter keepChar)) with
    | p :: rest =>
        if rest.length > 1 then pyFloat (p ++ '.' :: rest.flatten)
        else pyFloat (replaceFirstComma (text.data.filter keepChar))
    | [] => none

/-! ### Spec-side decimal reading

The specification's "numeric reading of the cleaned string": all digits of
the string form the digit sequence, and the digits after the first decimal
separator (comma or period) form the fractional part. -/

/-- `c` is a decimal separator (comma or period). -/
def isSep (c : Char) : Bool :=
  c == ',' || c == '.'

/-- Number of digits strictly after the first decimal separator. -/
def fracLen : List Char → Nat
  | [] => 0
  | c :: rest => if isSep c then (rest.filter Char.isDigit).length else fracLen rest

/-- Spec-side numeric reading of a cleaned string: the digit sequence read in
base 10, divided by `10 ^ (number of digits after the first separator)`. -/
def decRead (l : List Char) : ℚ :=
  (natVal (l.filter Char.isDigit) : ℚ) / 10 ^ fracLen l

/-! ### Lemmas about the parsing helpers -/

theorem keepChar_iff {c : Char} : keepChar c = true ↔ (c.isDigit ∨ isSep c) := by
  simp [keepChar, isSep, or_assoc]

theorem splitOnDot_ne_nil (l : List Char) : splitOnDot l ≠ [] := by
  induction l with
  | nil => simp [splitOnDot]
  | cons c rest ih =>
    simp only [splitOnDot]
    split
    · simp
    · cases h : splitOnDot rest with
      | nil => simp
      | cons p ps => simp [h]

theorem splitOnDot_dotfree {l : List Char} (h : ∀ c ∈ l, c ≠ '.') :
    splitOnDot l = [l] := by
  induction l with
  | nil => rfl
  | cons c rest ih =>
    have hc : c ≠ '.' := h c (by simp)
    have hr : splitOnDot rest = [rest] := ih (fun x hx => h x (by simp [hx]))
    simp [splitOnDot, hc, hr]

theorem splitOnDot_append {a : List Char} (b : List Char) (h : ∀ c ∈ a, c ≠ '.') :
    splitOnDot (a ++ '.' :: b) = a :: splitOnDot b := by
  induction a with
  | nil => simp [splitOnDot]
  | cons c rest ih =>
    have hc : c ≠ '.' := h c (by simp)
    have hr := ih (fun x hx => h x (by simp [hx]))
    rw [List.cons_append]
    rw [show splitOnDot (c :: (rest ++ '.' :: b))
        = if c = '.' then [] :: splitOnDot (rest ++ '.' :: b)
          else match splitOnDot (rest ++ '.' :: b) with
            | p :: ps => (c :: p) :: ps
            | [] => [[c]] from rfl]
    rw [if_neg hc, hr]

theorem mem_of_mem_splitOnDot {l : List Char} {p : List Char} {c : Char}
    (hp : p ∈ splitOnDot l) (hc : c ∈ p) : c ∈ l := by
  induction l generalizing p with
  | nil =>
    simp only [splitOnDot, List.mem_singleton] at hp
    subst hp
    simp at hc
  | cons d rest ih =>
    by_cases hd : d = '.'
    · rw [show splitOnDot (d :: rest) = [] :: splitOnDot rest by
        simp [splitOnDot, hd]] at hp
      rcases List.mem_cons.mp hp with h1 | h1
      · subst h1; simp at hc
      · exact List.mem_cons_of_mem _ (ih h1 hc)
    · rcases he : splitOnDot rest with _ | ⟨q, qs⟩
      · exact absurd he (splitOnDot_ne_nil rest)
      · rw [show splitOnDot (d :: rest) = (d :: q) :: qs by
          simp [splitOnDot, hd, he]] at hp
        rcases List.mem_cons.mp hp with h1 | h1
        · subst h1
          rcases List.mem_cons.mp hc with h2 | h2
          · simp [h2]
          · refine List.mem_cons_of_mem _ (ih ?_ h2)
            rw [he]; exact List.mem_cons_self q qs
        · refine List.mem_cons_of_mem _ (ih ?_ hc)
          rw [he]; exact List.mem_cons_of_mem q h1

theorem replaceFirstComma_commafree {l : List Char} (h : ∀ c ∈ l, c ≠ ',') :
    replaceFirstComma l = l := by
  induction l with
  | nil => rfl
  | cons c rest ih =>
    have hc : c ≠ ',' := h c (by simp)
    simp [replaceFirstComma, hc, ih (fun x hx => h x (by simp [hx]))]

theorem replaceFirstComma_append {a : List Char} (b : List Char)
    (h : ∀ c ∈ a, c ≠ ',') :
    replaceFirstComma (a ++ ',' :: b) = a ++ '.' :: b := by
  induction a with
  | nil => simp [replaceFirstComma]
  | cons c rest ih =>
    have hc : c ≠ ',' := h c (by simp)
    have hr := ih (fun x hx => h x (by simp [hx]))
    simp [replaceFirstComma, hc, hr]

theorem mem_replaceFirstComma {l : List Char} {c : Char}
    (hc : c ∈ replaceFirstComma l) : c ∈ l ∨ c = '.' := by
  induction l with
  | nil => simp [replaceFirstComma] at hc
  | cons d rest ih =>
    simp only [replaceFirstComma] at hc
    split at hc
    · rcases List.mem_cons.mp hc with h | h
      · exact Or.inr h
      · exact Or.inl (List.mem_cons_of_mem _ h)
    · rcases List.mem_cons.mp hc with h | h
      · exact Or.inl (by simp [h])
      · rcases ih h with h2 | h2
        · exact Or.inl (List.mem_cons_of_mem _ h2)
        · exact Or.inr h2

theorem natVal_foldl_acc (b : List Char) (acc : Nat) :
    b.foldl (fun acc c => 10 * acc + (c.toNat - 48)) acc
      = acc * 10 ^ b.length + natVal b := by
  induction b generalizing acc with
  | nil => simp [natVal]
  | cons c t ih =>
    simp only [List.foldl_cons, natVal] at *
    rw [ih (10 * acc + (c.toNat - 48)), ih (10 * 0 + (c.toNat - 48))]
    simp [List.length_cons, pow_succ]
    ring

theorem natVal_append (a b : List Char) :
    natVal (a ++ b) = natVal a * 10 ^ b.length + natVal b := by
  unfold natVal
  rw [List.foldl_append]
  exact natVal_foldl_acc b _

theorem pyFloat_eq_single {l p : List Char} (hs : splitOnDot l = [p]) :
    pyFloat l
      = if isDigits p && !p.isEmpty then some (natVal p : ℚ) else none := by
  unfold pyFloat
  rw [hs]

theorem pyFloat_eq_pair {l a b : List Char} (hs : splitOnDot l = [a, b]) :
    pyFloat l
      = if isDigits a && isDigits b && (!a.isEmpty || !b.isEmpty) then
          some ((natVal a : ℚ) + (natVal b : ℚ) / 10 ^ b.length)
        else none := by
  unfold pyFloat
  rw [hs]

theorem pyFloat_eq_none_of_big {l : List Char} {a b c : List Char}
    {rest : List (List Char)} (hs : splitOnDot l = a :: b :: c :: rest) :
    pyFloat l = none := by
  unfold pyFloat
  rw [hs]

theorem not_isEmpty_of_ne_nil {α : Type} {l : List α} (h : l ≠ []) :
    (!l.isEmpty) = true := by
  cases l with
  | nil => exact absurd rfl h
  | cons c t => rfl

theorem pyFloat_none_of_nodigit {l : List Char} (h : ∀ c ∈ l, c.isDigit = false) :
    pyFloat l = none := by
  rcases hs : splitOnDot l with _ | ⟨p, _ | ⟨b, _ | ⟨c, rest⟩⟩⟩
  · exact absurd hs (splitOnDot_ne_nil l)
  · rw [pyFloat_eq_single hs, if_neg]
    intro hcond
    simp only [Bool.and_eq_true, isDigits, List.all_eq_true] at hcond
    rcases hcond with ⟨hdig, hne⟩
    rcases p with _ | ⟨c, q⟩
    · simp at hne
    · have hmem : c ∈ l :=
        mem_of_mem_splitOnDot (hs ▸ List.mem_cons_self _ _) (by simp)
      have := h c hmem
      have := hdig c (by simp)
      simp_all
  · rw [pyFloat_eq_pair hs, if_neg]
    intro hcond
    simp only [Bool.and_eq_true, Bool.or_eq_true, isDigits, List.all_eq_true] at hcond
    rcases hcond with ⟨⟨hdp, hdq⟩, hne | hne⟩
    · rcases p with _ | ⟨c, t⟩
      · simp at hne
      · have hmem : c ∈ l :=
          mem_of_mem_splitOnDot (hs ▸ List.mem_cons_self _ _) (by simp)
        have := h c hmem
        have := hdp c (by simp)
        simp_all
    · rcases b with _ | ⟨c, t⟩
      · simp at hne
      · have hbmem : (c :: t) ∈ splitOnDot l := by rw [hs]; simp
        have hmem : c ∈ l := mem_of_mem_splitOnDot hbmem (by simp)
        have := h c hmem
        have := hdq c (by simp)
        simp_all
  · exact pyFloat_eq_none_of_big hs

theorem sep_not_digit {c : Char} (h : isSep c = true) : c.isDigit = false := by
  rcases (by simpa [isSep] using h : c = ',' ∨ c = '.') with rfl | rfl <;> decide

theorem fracLen_of_nosep {l : List Char} (h : ∀ c ∈ l, isSep c = false) :
    fracLen l = 0 := by
  induction l with
  | nil => rfl
  | cons c rest ih =>
    have hc : isSep c = false := h c (by simp)
    simp only [fracLen, hc, if_neg Bool.false_ne_true]
    exact ih (fun x hx => h x (by simp [hx]))

theorem fracLen_append {a : List Char} {s : Char} (b : List Char)
    (hs : isSep s = true) (ha : ∀ c ∈ a, isSep c = false) :
    fracLen (a ++ s :: b) = (b.filter Char.isDigit).length := by
  induction a with
  | nil => simp [fracLen, hs]
  | cons c rest ih =>
    have hc : isSep c = false := ha c (by simp)
    simp only [List.cons_append, fracLen, hc, if_neg Bool.false_ne_true]
    exact ih (fun x hx => ha x (by simp [hx]))

theorem countP_eq_one_split {α : Type} (p : α → Bool) {l : List α}
    (h : l.countP p = 1) :
    ∃ a x b, l = a ++ x :: b ∧ p x = true ∧ a.countP p = 0 ∧ b.countP p = 0 := by
  induction l with
  | nil => simp at h
  | cons c rest ih =>
    by_cases hc : p c = true
    · refine ⟨[], c, rest, rfl, hc, by simp, ?_⟩
      rw [List.countP_cons_of_pos _ _ hc] at h
      omega
    · rw [List.countP_cons_of_neg _ _ hc] at h
      obtain ⟨a, x, b, hsplit, hx, ha, hb⟩ := ih h
      refine ⟨c :: a, x, b, by simp [hsplit], hx, ?_, hb⟩
      rw [List.countP_cons_of_neg _ _ hc, ha]

theorem pyFloat_nonneg {l : List Char} {q : ℚ} (h : pyFloat l = some q) : 0 ≤ q := by
  rcases hs : splitOnDot l with _ | ⟨p, _ | ⟨b, _ | ⟨c, rest⟩⟩⟩
  · exact absurd hs (splitOnDot_ne_nil l)
  · rw [pyFloat_eq_single hs] at h
    split at h
    · have := Option.some.inj h
      subst this
      positivity
    · simp at h
  · rw [pyFloat_eq_pair hs] at h
    split at h
    · have := Option.some.inj h
      subst this
      positivity
    · simp at h
  · rw [pyFloat_eq_none_of_big hs] at h
    simp at h

theorem parse_amount_eq_of_split {text : String} {p : List Char}
    {rest : List (List Char)}
    (h1 : ¬text.data.isEmpty = true)
    (h2 : ¬(text.data.filter keepChar).isEmpty = true)
    (hs : splitOnDot (replaceFirstComma (text.data.filter keepChar)) = p :: rest) :
    parse_amount text =
      if rest.length > 1 then pyFloat (p ++ '.' :: rest.flatten)
      else pyFloat (replaceFirstComma (text.data.filter keepChar)) := by
  unfold parse_amount
  rw [if_neg h1, if_neg h2, hs]

/-- Soundness of `parse_amount` on well-formed inputs: if the text contains a
digit and the cleaned text has at most one decimal separator, the parser
returns exactly the decimal reading of the cleaned string. -/
theorem parse_amount_sound {text : String}
    (hdig : text.data.any Char.isDigit = true)
    (hsep : (text.data.filter keepChar).countP isSep ≤ 1) :
    parse_amount text = some (decRead (text.data.filter keepChar)) := by
  obtain ⟨d, hdmem, hd⟩ := List.any_eq_true.mp hdig
  have hkeep : keepChar d = true := keepChar_iff.mpr (Or.inl hd)
  have hdclean : d ∈ text.data.filter keepChar := List.mem_filter.mpr ⟨hdmem, hkeep⟩
  have h1 : ¬text.data.isEmpty = true := by
    intro habs
    rw [List.isEmpty_iff] at habs
    rw [habs] at hdmem
    simp at hdmem
  have h2 : ¬(text.data.filter keepChar).isEmpty = true := by
    intro habs
    rw [List.isEmpty_iff] at habs
    rw [habs] at hdclean
    simp at hdclean
  have hchars : ∀ c ∈ text.data.filter keepChar, c.isDigit = true ∨ isSep c = true :=
    fun c hc => keepChar_iff.mp (List.of_mem_filter hc)
  rcases Nat.le_one_iff_eq_zero_or_eq_one.mp hsep with hcount | hcount
  · -- no separator at all: the cleaned string is a nonempty digit string
    have hnosep : ∀ c ∈ text.data.filter keepChar, isSep c = false := by
      intro c hc
      have := List.countP_eq_zero.mp hcount c hc
      simpa using this
    have hdigs : ∀ c ∈ text.data.filter keepChar, c.isDigit = true := by
      intro c hc
      rcases hchars c hc with h | h
      · exact h
      · rw [hnosep c hc] at h; simp at h
    have hnocomma : ∀ c ∈ text.data.filter keepChar, c ≠ ',' := by
      intro c hc habs
      have := hnosep c hc
      rw [habs] at this
      simp [isSep] at this
    have hnodot : ∀ c ∈ text.data.filter keepChar, c ≠ '.' := by
      intro c hc habs
      have := hnosep c hc
      rw [habs] at this
      simp [isSep] at this
    have hc1 : replaceFirstComma (text.data.filter keepChar) = text.data.filter keepChar :=
      replaceFirstComma_commafree hnocomma
    have hsplit : splitOnDot (replaceFirstComma (text.data.filter keepChar))
        = [text.data.filter keepChar] := by
      rw [hc1]
      exact splitOnDot_dotfree hnodot
    rw [parse_amount_eq_of_split h1 h2 hsplit, if_neg (by norm_num), hc1]
    rw [pyFloat_eq_single (hc1 ▸ hsplit), if_pos]
    · rw [decRead, fracLen_of_nosep hnosep, List.filter_eq_self.mpr hdigs]
      norm_num
    · rw [Bool.and_eq_true]
      exact ⟨List.all_eq_true.mpr hdigs,
        not_isEmpty_of_ne_nil (List.ne_nil_of_mem hdclean)⟩
  · -- exactly one separator: the cleaned string is `a ++ s :: b` with digit
    -- lists `a`, `b`
    obtain ⟨a, s, b, hsplit, hsx, ha0, hb0⟩ := countP_eq_one_split isSep hcount
    have hasep : ∀ c ∈ a, isSep c = false := by
      intro c hc
      have := List.countP_eq_zero.mp ha0 c hc
      simpa using this
    have hbsep : ∀ c ∈ b, isSep c = false := by
      intro c hc
      have := List.countP_eq_zero.mp hb0 c hc
      simpa using this
    have hadigs : ∀ c ∈ a, c.isDigit = true := by
      intro c hc
      rcases hchars c (by rw [hsplit]; simp [hc]) with h | h
      · exact h
      · rw [hasep c hc] at h; simp at h
    have hbdigs : ∀ c ∈ b, c.isDigit = true := by
      intro c hc
      rcases hchars c (by rw [hsplit]; simp [hc]) with h | h
      · exact h
      · rw [hbsep c hc] at h; simp at h
    have hadots : ∀ c ∈ a, c ≠ '.' := by
      intro c hc habs
      have := hasep c hc
      rw [habs] at this
      simp [isSep] at this
    have hbdots : ∀ c ∈ b, c ≠ '.' := by
      intro c hc habs
      have := hbsep c hc
      rw [habs] at this
      simp [isSep] at this
    have hc1 : replaceFirstComma (text.data.filter keepChar) = a ++ '.' :: b := by
      rcases (by simpa [isSep] using hsx : s = ',' ∨ s = '.') with rfl | rfl
      · rw [hsplit]
        refine replaceFirstComma_append b ?_
        intro c hc habs
        have := hasep c hc
        rw [habs] at this
        simp [isSep] at this
      · rw [hsplit]
        refine replaceFirstComma_commafree ?_
        intro c hc habs
        rcases List.mem_append.mp hc with h | h
        · have := hasep c h
          rw [habs] at this
          simp [isSep] at this
        · rcases List.mem_cons.mp h with h | h
          · rw [habs] at h; simp at h
          · have := hbsep c h
            rw [habs] at this
            simp [isSep] at this
    have hsplit2 : splitOnDot (replaceFirstComma (text.data.filter keepChar))
        = [a, b] := by
      rw [hc1, splitOnDot_append b hadots, splitOnDot_dotfree hbdots]
    rw [parse_amount_eq_of_split h1 h2 hsplit2, if_neg (by norm_num)]
    rw [pyFloat_eq_pair (by rw [hc1] at hsplit2 ⊢; exact hsplit2), if_pos]
    · have hfilter : (text.data.filter keepChar).filter Char.isDigit = a ++ b := by
        rw [hsplit, List.filter_append, List.filter_cons_of_neg, List.filter_eq_self.mpr hadigs,
            List.filter_eq_self.mpr hbdigs]
        simp [sep_not_digit hsx]
      have hfrac : fracLen (text.data.filter keepChar) = b.length := by
        rw [hsplit, fracLen_append b hsx hasep, List.filter_eq_self.mpr hbdigs]
      rw [decRead, hfilter, hfrac, natVal_append]
      have hten : ((10 : ℚ) ^ b.length) ≠ 0 := by positivity
      push_cast
      field_simp
    · rw [Bool.and_eq_true, Bool.and_eq_true, Bool.or_eq_true]
      refine ⟨⟨List.all_eq_true.mpr hadigs, List.all_eq_true.mpr hbdigs⟩, ?_⟩
      have hdab : d ∈ a ++ s :: b := by rw [← hsplit]; exact hdclean
      have hds : d ≠ s := by
        intro habs
        rw [habs] at hd
        rw [sep_not_digit hsx] at hd
        simp at hd
      rcases List.mem_append.mp hdab with h | h
      · exact Or.inl (not_isEmpty_of_ne_nil (List.ne_nil_of_mem h))
      · rcases List.mem_cons.mp h with h | h
        · exact absurd h hds
        · exact Or.inr (not_isEmpty_of_ne_nil (List.ne_nil_of_mem h))

/-- An input with no digit at all is always rejected. -/
theorem parse_amount_none_of_nodigit {text : String}
    (h : text.data.any Char.isDigit = false) :
    parse_amount text = none := by
  have hnod : ∀ c ∈ text.data, c.isDigit = false := by
    intro c hc
    by_contra habs
    have : text.data.any Char.isDigit = true :=
      List.any_eq_true.mpr ⟨c, hc, by simpa using habs⟩
    rw [h] at this
    simp at this
  have hclnod : ∀ c ∈ text.data.filter keepChar, c.isDigit = false :=
    fun c hc => hnod c (List.mem_of_mem_filter hc)
  have hc1nod : ∀ c ∈ replaceFirstComma (text.data.filter keepChar),
      c.isDigit = false := by
    intro c hc
    rcases mem_replaceFirstComma hc with h | rfl
    · exact hclnod c h
    · decide
  unfold parse_amount
  by_cases h1 : text.data.isEmpty = true
  · rw [if_pos h1]
  · rw [if_neg h1]
    by_cases h2 : (text.data.filter keepChar).isEmpty = true
    · rw [if_pos h2]
    · rw [if_neg h2]
      rcases hsd : splitOnDot (replaceFirstComma (text.data.filter keepChar))
        with _ | ⟨p, rest⟩
      · exact absurd hsd (splitOnDot_ne_nil _)
      · show (if rest.length > 1 then pyFloat (p ++ '.' :: rest.flatten)
          else pyFloat (replaceFirstComma (text.data.filter keepChar))) = none
        by_cases hlen : rest.length > 1
        · rw [if_pos hlen]
          refine pyFloat_none_of_nodigit ?_
          intro c hc
          rcases List.mem_append.mp hc with h | h
          · exact hc1nod c (mem_of_mem_splitOnDot (by rw [hsd]; simp) h)
          · rcases List.mem_cons.mp h with rfl | h
            · decide
            · obtain ⟨q, hq, hcq⟩ := List.mem_flatten.mp h
              exact hc1nod c
                (mem_of_mem_splitOnDot (by rw [hsd]; simp [hq]) hcq)
        · rw [if_neg hlen]
          exact pyFloat_none_of_nodigit hc1nod

/-- A successful parse is never negative: every sign character is stripped by
the cleaning step, and the retained value is built from digit readings only. -/
theorem parse_amount_nonneg {text : String} {q : ℚ}
    (h : parse_amount text = some q) : 0 ≤ q := by
  unfold parse_amount at h
  by_cases h1 : text.data.isEmpty = true
  · rw [if_pos h1] at h; simp at h
  · rw [if_neg h1] at h
    by_cases h2 : (text.data.filter keepChar).isEmpty = true
    · rw [if_pos h2] at h; simp at h
    · rw [if_neg h2] at h
      rcases hsd : splitOnDot (replaceFirstComma (text.data.filter keepChar))
        with _ | ⟨p, rest⟩
      · exact absurd hsd (splitOnDot_ne_nil _)
      · rw [hsd] at h
        have h' : (if rest.length > 1 then pyFloat (p ++ '.' :: rest.flatten)
            else pyFloat (replaceFirstComma (text.data.filter keepChar)))
              = some q := h
        by_cases hlen : rest.length > 1
        · rw [if_pos hlen] at h'
          exact pyFloat_nonneg h'
        · rw [if_neg hlen] at h'
          exact pyFloat_nonneg h'

theorem digit_ne_dot {x : Char} (h : x.isDigit = true) : x ≠ '.' := by
  intro habs
  rw [habs] at h
  exact absurd h (by decide)

theorem digit_ne_comma {x : Char} (h : x.isDigit = true) : x ≠ ',' := by
  intro habs
  rw [habs] at h
  exact absurd h (by decide)

/-- With two periods in the cleaned text, only the first acts as the decimal
point: the segments after it are concatenated into one fractional part. -/
theorem parse_amount_merge {a b c : List Char}
    (ha : ∀ x ∈ a, x.isDigit = true) (hb : ∀ x ∈ b, x.isDigit = true)
    (hc : ∀ x ∈ c, x.isDigit = true) (hane : a ≠ []) :
    parse_amount (String.mk (a ++ '.' :: (b ++ '.' :: c)))
      = some ((natVal a : ℚ) + (natVal (b ++ c) : ℚ) / 10 ^ (b ++ c).length) := by
  have hlne : a ++ '.' :: (b ++ '.' :: c) ≠ [] := by
    cases a with
    | nil => exact absurd rfl hane
    | cons x t => simp
  have hdata : (String.mk (a ++ '.' :: (b ++ '.' :: c))).data
      = a ++ '.' :: (b ++ '.' :: c) := rfl
  have h1 : ¬(String.mk (a ++ '.' :: (b ++ '.' :: c))).data.isEmpty = true := by
    rw [hdata, List.isEmpty_iff]
    exact hlne
  have hkeepall : ∀ x ∈ a ++ '.' :: (b ++ '.' :: c), keepChar x = true := by
    intro x hx
    rcases List.mem_append.mp hx with h | h
    · exact keepChar_iff.mpr (Or.inl (ha x h))
    · rcases List.mem_cons.mp h with rfl | h
      · decide
      · rcases List.mem_append.mp h with h | h
        · exact keepChar_iff.mpr (Or.inl (hb x h))
        · rcases List.mem_cons.mp h with rfl | h
          · decide
          · exact keepChar_iff.mpr (Or.inl (hc x h))
  have hfilter : (a ++ '.' :: (b ++ '.' :: c)).filter keepChar
      = a ++ '.' :: (b ++ '.' :: c) := List.filter_eq_self.mpr hkeepall
  have h2 : ¬((String.mk (a ++ '.' :: (b ++ '.' :: c))).data.filter keepChar).isEmpty
      = true := by
    rw [hdata, hfilter, List.isEmpty_iff]
    exact hlne
  have hnocomma : ∀ x ∈ a ++ '.' :: (b ++ '.' :: c), x ≠ ',' := by
    intro x hx
    rcases List.mem_append.mp hx with h | h
    · exact digit_ne_comma (ha x h)
    · rcases List.mem_cons.mp h with rfl | h
      · decide
      · rcases List.mem_append.mp h with h | h
        · exact digit_ne_comma (hb x h)
        · rcases List.mem_cons.mp h with rfl | h
          · decide
          · exact digit_ne_comma (hc x h)
  have hrep : replaceFirstComma (a ++ '.' :: (b ++ '.' :: c))
      = a ++ '.' :: (b ++ '.' :: c) := replaceFirstComma_commafree hnocomma
  have hsplit : splitOnDot (a ++ '.' :: (b ++ '.' :: c)) = [a, b, c] := by
    rw [splitOnDot_append _ (fun x hx => digit_ne_dot (ha x hx)),
      splitOnDot_append _ (fun x hx => digit_ne_dot (hb x hx)),
      splitOnDot_dotfree (fun x hx => digit_ne_dot (hc x hx))]
  have hsplit2 : splitOnDot (replaceFirstComma
      ((String.mk (a ++ '.' :: (b ++ '.' :: c))).data.filter keepChar))
      = a :: [b, c] := by
    rw [hdata, hfilter, hrep, hsplit]
  rw [parse_amount_eq_of_split h1 h2 hsplit2, if_pos (by norm_num)]
  have hflat : ([b, c] : List (List Char)).flatten = b ++ c := by
    simp
  rw [hflat]
  have hsplit3 : splitOnDot (a ++ '.' :: (b ++ c)) = [a, b ++ c] := by
    rw [splitOnDot_append _ (fun x hx => digit_ne_dot (ha x hx)),
      splitOnDot_dotfree]
    intro x hx
    rcases List.mem_append.mp hx with h | h
    · exact digit_ne_dot (hb x h)
    · exact digit_ne_dot (hc x h)
  rw [pyFloat_eq_pair hsplit3, if_pos]
  rw [Bool.and_eq_true, Bool.and_eq_true]
  refine ⟨⟨List.all_eq_true.mpr ha, List.all_eq_true.mpr ?_⟩, ?_⟩
  case refine_2 =>
    rw [Bool.or_eq_true]
    exact Or.inl (not_isEmpty_of_ne_nil hane)
  intro x hx
  rcases List.mem_append.mp hx with h | h
  · exact hb x h
  · exact hc x h

/-! ### The general merged-reading soundness

`parse_amount` on any input whose cleaned string keeps at most one comma:
whatever the number of periods, only the first separator of the cleaned
string acts as the decimal point and all later digits are merged into the
fractional part, which is exactly the reading `decRead` computes. -/

theorem digit_not_sep {c : Char} (h : c.isDigit = true) : isSep c = false := by
  by_contra habs
  have hsep : isSep c = true := by simpa using habs
  rw [sep_not_digit hsep] at h
  simp at h

theorem splitOnDot_flatten (l : List Char) :
    (splitOnDot l).flatten = l.filter (fun c => !(c == '.')) := by
  induction l with
  | nil => simp [splitOnDot]
  | cons c rest ih =>
    by_cases hc : c = '.'
    · subst hc
      rw [show splitOnDot ('.' :: rest) = [] :: splitOnDot rest from by
        simp [splitOnDot]]
      simp [ih]
    · rcases he : splitOnDot rest with _ | ⟨q, qs⟩
      · exact absurd he (splitOnDot_ne_nil rest)
      · rw [show splitOnDot (c :: rest) = (c :: q) :: qs from by
          simp [splitOnDot, hc, he]]
        rw [List.filter_cons, if_pos (by simp [hc])]
        calc ((c :: q) :: qs).flatten
            = c :: ((q :: qs).flatten) := by simp
          _ = c :: (splitOnDot rest).flatten := by rw [he]
          _ = c :: rest.filter (fun c => !(c == '.')) := by rw [ih]

theorem splitOnDot_singleton : ∀ {l p : List Char}, splitOnDot l = [p] →
    l = p ∧ ∀ c ∈ p, c ≠ '.' := by
  intro l
  induction l with
  | nil =>
    intro p h
    rw [show splitOnDot ([] : List Char) = [[]] from rfl] at h
    obtain ⟨hp, _⟩ := List.cons.inj h
    refine ⟨hp, ?_⟩
    rw [← hp]
    intro c hc
    simp at hc
  | cons c t ih =>
    intro p h
    by_cases hc : c = '.'
    · subst hc
      rw [show splitOnDot ('.' :: t) = [] :: splitOnDot t from by
        simp [splitOnDot]] at h
      obtain ⟨_, hrest⟩ := List.cons.inj h
      exact absurd hrest (splitOnDot_ne_nil t)
    · rcases he : splitOnDot t with _ | ⟨q, qs⟩
      · exact absurd he (splitOnDot_ne_nil t)
      · rw [show splitOnDot (c :: t) = (c :: q) :: qs from by
          simp [splitOnDot, hc, he]] at h
        obtain ⟨hp, hrest⟩ := List.cons.inj h
        obtain ⟨hteq, htdf⟩ := ih (by rw [he, hrest])
        constructor
        · rw [← hp, hteq]
        · intro x hx
          rw [← hp] at hx
          rcases List.mem_cons.mp hx with rfl | hx
          · exact hc
          · exact htdf x hx

theorem splitOnDot_structure : ∀ {l p : List Char} {rest : List (List Char)},
    splitOnDot l = p :: rest → rest ≠ [] →
    ∃ tail, l = p ++ '.' :: tail ∧ splitOnDot tail = rest ∧ ∀ c ∈ p, c ≠ '.' := by
  intro l
  induction l with
  | nil =>
    intro p rest h hne
    rw [show splitOnDot ([] : List Char) = [[]] from rfl] at h
    obtain ⟨_, hrest⟩ := List.cons.inj h
    exact absurd hrest.symm hne
  | cons c t ih =>
    intro p rest h hne
    by_cases hc : c = '.'
    · subst hc
      rw [show splitOnDot ('.' :: t) = [] :: splitOnDot t from by
        simp [splitOnDot]] at h
      obtain ⟨hp, hrest⟩ := List.cons.inj h
      refine ⟨t, ?_, hrest, ?_⟩
      · rw [← hp]
        rfl
      · intro x hx
        rw [← hp] at hx
        simp at hx
    · rcases he : splitOnDot t with _ | ⟨q, qs⟩
      · exact absurd he (splitOnDot_ne_nil t)
      · rw [show splitOnDot (c :: t) = (c :: q) :: qs from by
          simp [splitOnDot, hc, he]] at h
        obtain ⟨hp, hrest⟩ := List.cons.inj h
        have hqs : qs ≠ [] := by
          rw [hrest]
          exact hne
        obtain ⟨tail, ht, hst, hdf⟩ := ih he hqs
        refine ⟨tail, ?_, ?_, ?_⟩
        · rw [← hp, ht]
          simp
        · rw [← hrest]
          exact hst
        · intro x hx
          rw [← hp] at hx
          rcases List.mem_cons.mp hx with rfl | hx
          · exact hc
          · exact hdf x hx

theorem filter_isDigit_replaceFirstComma (l : List Char) :
    (replaceFirstComma l).filter Char.isDigit = l.filter Char.isDigit := by
  induction l with
  | nil => rfl
  | cons c rest ih =>
    by_cases hc : c = ','
    · subst hc
      rw [show replaceFirstComma (',' :: rest) = '.' :: rest from by
        simp [replaceFirstComma]]
      rw [List.filter_cons, List.filter_cons, if_neg (by decide), if_neg (by decide)]
    · rw [show replaceFirstComma (c :: rest) = c :: replaceFirstComma rest from by
        simp [replaceFirstComma, hc]]
      rw [List.filter_cons, List.filter_cons]
      by_cases hd : c.isDigit = true
      · rw [if_pos hd, if_pos hd, ih]
      · rw [if_neg hd, if_neg hd]
        exact ih

theorem fracLen_replaceFirstComma (l : List Char) :
    fracLen (replaceFirstComma l) = fracLen l := by
  induction l with
  | nil => rfl
  | cons c rest ih =>
    by_cases hc : c = ','
    · subst hc
      rw [show replaceFirstComma (',' :: rest) = '.' :: rest from by
        simp [replaceFirstComma]]
      simp only [fracLen]
      rw [if_pos (by decide), if_pos (by decide)]
    · rw [show replaceFirstComma (c :: rest) = c :: replaceFirstComma rest from by
        simp [replaceFirstComma, hc]]
      simp only [fracLen]
      by_cases hs : isSep c = true
      · rw [if_pos hs, if_pos hs, filter_isDigit_replaceFirstComma]
      · rw [if_neg hs, if_neg hs]
        exact ih

theorem decRead_replaceFirstComma (l : List Char) :
    decRead (replaceFirstComma l) = decRead l := by
  unfold decRead
  rw [filter_isDigit_replaceFirstComma, fracLen_replaceFirstComma]

theorem replaceFirstComma_result_commafree {l : List Char}
    (h : l.countP (fun c => c == ',') ≤ 1) :
    ∀ c ∈ replaceFirstComma l, c ≠ ',' := by
  induction l with
  | nil =>
    intro c hc
    simp [replaceFirstComma] at hc
  | cons d rest ih =>
    by_cases hd : d = ','
    · subst hd
      rw [show replaceFirstComma (',' :: rest) = '.' :: rest from by
        simp [replaceFirstComma]]
      intro c hc
      rcases List.mem_cons.mp hc with rfl | hc
      · decide
      · have h0 : rest.countP (fun c => c == ',') = 0 := by
          rw [List.countP_cons_of_pos _ _ (by decide)] at h
          omega
        intro habs
        have := List.countP_eq_zero.mp h0 c hc
        rw [habs] at this
        simp at this
    · rw [show replaceFirstComma (d :: rest) = d :: replaceFirstComma rest from by
        simp [replaceFirstComma, hd]]
      intro c hc
      rcases List.mem_cons.mp hc with rfl | hc
      · exact hd
      · refine ih ?_ c hc
        rw [List.countP_cons_of_neg _ _ (by simp [hd])] at h
        exact h

theorem decRead_append_dot {p : List Char} (b : List Char)
    (hp : ∀ c ∈ p, c.isDigit = true) :
    decRead (p ++ '.' :: b)
      = (natVal p : ℚ) + (natVal (b.filter Char.isDigit) : ℚ)
          / 10 ^ (b.filter Char.isDigit).length := by
  unfold decRead
  have hpsame : p.filter Char.isDigit = p := List.filter_eq_self.mpr hp
  have hfilter : (p ++ '.' :: b).filter Char.isDigit = p ++ b.filter Char.isDigit := by
    rw [List.filter_append, List.filter_cons, if_neg (by decide), hpsame]
  have hfrac : fracLen (p ++ '.' :: b) = (b.filter Char.isDigit).length :=
    fracLen_append b (by decide) (fun c hc => digit_not_sep (hp c hc))
  rw [hfilter, hfrac, natVal_append]
  push_cast
  field_simp

theorem pyFloat_append_dot {p b : List Char}
    (hp : ∀ c ∈ p, c.isDigit = true) (hb : ∀ c ∈ b, c.isDigit = true)
    (hne : p ≠ [] ∨ b ≠ []) :
    pyFloat (p ++ '.' :: b)
      = some ((natVal p : ℚ) + (natVal b : ℚ) / 10 ^ b.length) := by
  have hsplit : splitOnDot (p ++ '.' :: b) = [p, b] := by
    rw [splitOnDot_append b (fun c hc => digit_ne_dot (hp c hc)),
      splitOnDot_dotfree (fun c hc => digit_ne_dot (hb c hc))]
  rw [pyFloat_eq_pair hsplit, if_pos]
  rw [Bool.and_eq_true, Bool.and_eq_true]
  refine ⟨⟨List.all_eq_true.mpr hp, List.all_eq_true.mpr hb⟩, ?_⟩
  rw [Bool.or_eq_true]
  rcases hne with h | h
  · exact Or.inl (not_isEmpty_of_ne_nil h)
  · exact Or.inr (not_isEmpty_of_ne_nil h)

/-- Generalized soundness: any input containing a digit whose cleaned string
keeps at most one comma parses to the merged decimal reading of the cleaned
string — only its first separator is a decimal point, every digit after it
lands in the fractional part — for any number of period separators. -/
theorem parse_amount_merged_reading {text : String}
    (hdig : text.data.any Char.isDigit = true)
    (hcomma : (text.data.filter keepChar).countP (fun c => c == ',') ≤ 1) :
    parse_amount text = some (decRead (text.data.filter keepChar)) := by
  obtain ⟨d, hdmem, hd⟩ := List.any_eq_true.mp hdig
  have hkeep : keepChar d = true := keepChar_iff.mpr (Or.inl hd)
  have hdclean : d ∈ text.data.filter keepChar := List.mem_filter.mpr ⟨hdmem, hkeep⟩
  have h1 : ¬text.data.isEmpty = true := by
    intro habs
    rw [List.isEmpty_iff] at habs
    rw [habs] at hdmem
    simp at hdmem
  have h2 : ¬(text.data.filter keepChar).isEmpty = true := by
    intro habs
    rw [List.isEmpty_iff] at habs
    rw [habs] at hdclean
    simp at hdclean
  have hcfree : ∀ c ∈ replaceFirstComma (text.data.filter keepChar), c ≠ ',' :=
    replaceFirstComma_result_commafree hcomma
  have hchars : ∀ c ∈ replaceFirstComma (text.data.filter keepChar),
      c.isDigit = true ∨ c = '.' := by
    intro c hc
    rcases mem_replaceFirstComma hc with h | rfl
    · rcases keepChar_iff.mp (List.of_mem_filter h) with h3 | h3
      · exact Or.inl h3
      · rcases (by simpa [isSep] using h3 : c = ',' ∨ c = '.') with rfl | rfl
        · exact absurd rfl (hcfree _ hc)
        · exact Or.inr rfl
    · exact Or.inr rfl
  have hdigc1 : d ∈ (replaceFirstComma (text.data.filter keepChar)).filter
      Char.isDigit := by
    rw [filter_isDigit_replaceFirstComma]
    exact List.mem_filter.mpr ⟨hdclean, hd⟩
  rw [show decRead (text.data.filter keepChar)
      = decRead (replaceFirstComma (text.data.filter keepChar)) from
    (decRead_replaceFirstComma _).symm]
  rcases hs : splitOnDot (replaceFirstComma (text.data.filter keepChar))
    with _ | ⟨p0, rest⟩
  · exact absurd hs (splitOnDot_ne_nil _)
  rcases rest with _ | ⟨r1, rrest⟩
  · -- no period in the normalized string: a plain digit string
    obtain ⟨hleq, hdf⟩ := splitOnDot_singleton hs
    have hdigs0 : ∀ c ∈ p0, c.isDigit = true := by
      intro c hc
      rcases hchars c (by rw [hleq]; exact hc) with h | rfl
      · exact h
      · exact absurd rfl (hdf _ hc)
    rw [parse_amount_eq_of_split h1 h2 hs, if_neg (by norm_num),
      pyFloat_eq_single hs, if_pos]
    · unfold decRead
      rw [hleq, List.filter_eq_self.mpr hdigs0,
        fracLen_of_nosep (fun c hc => digit_not_sep (hdigs0 c hc)), pow_zero, div_one]
    · rw [Bool.and_eq_true]
      refine ⟨List.all_eq_true.mpr hdigs0, not_isEmpty_of_ne_nil ?_⟩
      have : d ∈ p0 := by
        rw [← hleq]
        exact List.mem_of_mem_filter hdigc1
      exact List.ne_nil_of_mem this
  · -- at least one period: `c1 = p0 ++ '.' :: tail`
    obtain ⟨tail, hl, hst, hp0df⟩ := splitOnDot_structure hs (by simp)
    have hp0dig : ∀ c ∈ p0, c.isDigit = true := by
      intro c hc
      rcases hchars c (by rw [hl]; exact List.mem_append.mpr (Or.inl hc)) with h | rfl
      · exact h
      · exact absurd rfl (hp0df _ hc)
    have htailchars : ∀ c ∈ tail, c.isDigit = true ∨ c = '.' := by
      intro c hc
      exact hchars c (by
        rw [hl]
        exact List.mem_append.mpr (Or.inr (List.mem_cons_of_mem _ hc)))
    have hfil : (replaceFirstComma (text.data.filter keepChar)).filter Char.isDigit
        = p0 ++ tail.filter Char.isDigit := by
      rw [hl, List.filter_append, List.filter_cons, if_neg (by decide),
        List.filter_eq_self.mpr hp0dig]
    have hne : p0 ≠ [] ∨ tail.filter Char.isDigit ≠ [] := by
      rw [hfil] at hdigc1
      rcases List.mem_append.mp hdigc1 with h | h
      · exact Or.inl (List.ne_nil_of_mem h)
      · exact Or.inr (List.ne_nil_of_mem h)
    rcases rrest with _ | ⟨r2, rrrest⟩
    · -- exactly one period
      obtain ⟨hteq, htdf⟩ := splitOnDot_singleton hst
      have htaildig : ∀ c ∈ tail, c.isDigit = true := by
        intro c hc
        rcases htailchars c hc with h | rfl
        · exact h
        · exact absurd rfl (htdf _ (by rw [← hteq]; exact hc))
      have hne2 : p0 ≠ [] ∨ tail ≠ [] := by
        rcases hne with h | h
        · exact Or.inl h
        · refine Or.inr ?_
          intro habs
          rw [habs] at h
          simp at h
      rw [parse_amount_eq_of_split h1 h2 hs, if_neg (by norm_num), hl,
        pyFloat_append_dot hp0dig htaildig hne2, decRead_append_dot tail hp0dig,
        List.filter_eq_self.mpr htaildig]
    · -- two or more periods: the merge branch of the parser
      have hflat : (r1 :: r2 :: rrrest).flatten
          = tail.filter (fun c => !(c == '.')) := by
        rw [← hst, splitOnDot_flatten]
      have htailfil : tail.filter Char.isDigit = (r1 :: r2 :: rrrest).flatten := by
        rw [hflat]
        refine List.filter_congr ?_
        intro c hc
        rcases htailchars c hc with h | rfl
        · simp [h, digit_ne_dot h]
        · decide
      have hflatdig : ∀ c ∈ (r1 :: r2 :: rrrest).flatten, c.isDigit = true := by
        intro c hc
        rw [← htailfil] at hc
        exact (List.mem_filter.mp hc).2
      have hne3 : p0 ≠ [] ∨ (r1 :: r2 :: rrrest).flatten ≠ [] := by
        rcases hne with h | h
        · exact Or.inl h
        · exact Or.inr (htailfil ▸ h)
      rw [parse_amount_eq_of_split h1 h2 hs,
        if_pos (by simp [List.length_cons]), hl,
        pyFloat_append_dot hp0dig hflatdig hne3,
        decRead_append_dot tail hp0dig, htailfil]

/-- C5: for every input containing at least one digit and at most one
decimal separator after stripping to digits, commas and periods, the parser
returns the numeric reading of the cleaned string; for every input with no
digit, it fails (`InvalidAmount`, modelled as `none`). -/
theorem claim_C5 (text : String) :
    (text.data.any Char.isDigit = true →
      (text.data.filter keepChar).countP isSep ≤ 1 →
        parse_amount text = some (decRead (text.data.filter keepChar)))
    ∧ (text.data.any Char.isDigit = false → parse_amount text = none) :=
  ⟨fun h1 h2 => parse_amount_sound h1 h2,
   fun h => parse_amount_none_of_nodigit h⟩

theorem claim_C5_witness :
    parse_amount "12,5" = some (decRead ("12,5".data.filter keepChar))
    ∧ parse_amount "abc" = none :=
  ⟨(claim_C5 "12,5").1 (by decide) (by decide),
   (claim_C5 "abc").2 (by decide)⟩

/-- C6 counterexample: `"1,2,3.4"` has multiple decimal separators after
normalization — the normalized cleaned string `"1.2,3.4"` carries three
separator characters and splits on periods into three segments — yet the
parser rejects it rather than merging: the merged string `"1.2,34"` keeps
the residual comma, so the conversion fails and `parse_amount` returns
failure, refuting the claim's "merges … rather than rejecting" universal. -/
theorem claim_C6_counterexample :
    2 < (splitOnDot (replaceFirstComma ("1,2,3.4".data.filter keepChar))).length
    ∧ 1 < (replaceFirstComma ("1,2,3.4".data.filter keepChar)).countP isSep
    ∧ parse_amount "1,2,3.4" = none :=
  ⟨by decide, by decide, by rfl⟩

/-- C6 amended: for every input string whose cleaned form (digits, commas
and periods) contains a digit and at most one comma, only the first
separator of the cleaned string acts as the decimal point and every digit
after it — across any number of later period separators, including empty
segments — is merged into a single fractional part, the parser returning
exactly that merged decimal reading; in particular `"1.234,56"` parses to
exactly `1.23456`.  (An input whose cleaned form keeps a second comma is
instead rejected at the conversion step: see the counterexample.) -/
theorem claim_C6 :
    (∀ text : String, text.data.any Char.isDigit = true →
      (text.data.filter keepChar).countP (fun c => c == ',') ≤ 1 →
        parse_amount text = some (decRead (text.data.filter keepChar)))
    ∧ parse_amount "1.234,56" = some (1.23456 : ℚ) := by
  constructor
  · intro text hdig hcomma
    exact parse_amount_merged_reading hdig hcomma
  · simp +decide [parse_amount, pyFloat, keepChar, replaceFirstComma, splitOnDot,
      natVal, isDigits]
    norm_num

theorem claim_C6_witness :
    parse_amount "1.2.3.4" = some (decRead ("1.2.3.4".data.filter keepChar))
    ∧ parse_amount ".2.3" = some (decRead (".2.3".data.filter keepChar))
    ∧ parse_amount "x1,2.3y" = some (decRead ("x1,2.3y".data.filter keepChar)) :=
  ⟨claim_C6.1 "1.2.3.4" (by decide) (by decide),
   claim_C6.1 ".2.3" (by decide) (by decide),
   claim_C6.1 "x1,2.3y" (by decide) (by decide)⟩

/-- C10: a successful parse is never negative (sign characters are stripped
before conversion), and the negative-signed input `"-500"` parses
successfully to the positive value `500`. -/
theorem claim_C10 :
    (∀ (text : String) (q : ℚ), parse_amount text = some q → 0 ≤ q)
    ∧ parse_amount "-500" = some 500 :=
  ⟨fun _ _ h => parse_amount_nonneg h, by rfl⟩

theorem claim_C10_witness : (0 : ℚ) ≤ 500 :=
  claim_C10.1 "-500" 500 claim_C10.2

/-! ## Ledger data model (`db/database.py`)

A `transactions` row.  `day` models the `DATE(created_at)` projection used by
the daily and weekly queries; `createdAt` models the full `created_at`
timestamp compared by the monthly query (ISO-8601 strings of UTC instants
compare exactly like the instants themselves). -/

inductive TType
  | income
  | expense
  deriving DecidableEq, Repr

structure Tx where
  userId : Nat
  ttype : TType
  amount : ℚ
  category : String
  description : String
  day : Int
  createdAt : Nat
  deriving DecidableEq, Repr

/-- `SUM(CASE WHEN type = ty THEN amount ELSE 0 END)` over a set of rows;
the `COALESCE(..., 0)` / Python `or 0` fallback makes the empty sum `0`,
which is also the value of the empty list sum. -/
def sqlCaseSum (rows : List Tx) (ty : TType) : ℚ :=
  (rows.map (fun t => if t.ttype == ty then t.amount else 0)).sum

/-- `WHERE user_id = ? AND DATE(created_at) = ?` with `?` = today (UTC). -/
def dailyWhere (userId : Nat) (today : Int) (t : Tx) : Bool :=
  t.userId == userId && t.day == today

/-- `WHERE user_id = ? AND DATE(created_at) >= ?` with `?` = today − 7 days. -/
def weeklyWhere (userId : Nat) (today : Int) (t : Tx) : Bool :=
  t.userId == userId && decide (today - 7 ≤ t.day)

/-- `WHERE user_id = ? AND created_at >= ?` with `?` = the first instant of
the current calendar month. -/
def monthlyWhere (userId : Nat) (monthStart : Nat) (t : Tx) : Bool :=
  t.userId == userId && decide (monthStart ≤ t.createdAt)

/-- `get_daily_summary` (`db/database.py` lines 131-152). -/
def get_daily_summary (l : List Tx) (userId : Nat) (today : Int) : ℚ × ℚ × ℚ :=
  (sqlCaseSum (l.filter (dailyWhere userId today)) TType.income,
   sqlCaseSum (l.filter (dailyWhere userId today)) TType.expense,
   sqlCaseSum (l.filter (dailyWhere userId today)) TType.income
     - sqlCaseSum (l.filter (dailyWhere userId today)) TType.expense)

/-- `get_weekly_summary` (`db/database.py` lines 154-175). -/
def get_weekly_summary (l : List Tx) (userId : Nat) (today : Int) : ℚ × ℚ × ℚ :=
  (sqlCaseSum (l.filter (weeklyWhere userId today)) TType.income,
   sqlCaseSum (l.filter (weeklyWhere userId today)) TType.expense,
   sqlCaseSum (l.filter (weeklyWhere userId today)) TType.income
     - sqlCaseSum (l.filter (weeklyWhere userId today)) TType.expense)

/-- `get_monthly_summary` (`db/database.py` lines 177-199). -/
def get_monthly_summary (l : List Tx) (userId : Nat) (monthStart : Nat) : ℚ × ℚ × ℚ :=
  (sqlCaseSum (l.filter (monthlyWhere userId monthStart)) TType.income,
   sqlCaseSum (l.filter (monthlyWhere userId monthStart)) TType.expense,
   sqlCaseSum (l.filter (monthlyWhere userId monthStart)) TType.income
     - sqlCaseSum (l.filter (monthlyWhere userId monthStart)) TType.expense)

/-- Spec-side windowed sum: the plain sum of the amounts of the transactions
of the window that have the given type. -/
def specTypeSum (l : List Tx) (w : Tx → Bool) (ty : TType) : ℚ :=
  ((l.filter (fun t => w t && t.ttype == ty)).map (fun t => t.amount)).sum

theorem sqlCaseSum_filter (l : List Tx) (w : Tx → Bool) (ty : TType) :
    sqlCaseSum (l.filter w) ty = specTypeSum l w ty := by
  unfold sqlCaseSum specTypeSum
  induction l with
  | nil => rfl
  | cons t rest ih =>
    rw [List.filter_cons, List.filter_cons]
    by_cases hw : w t = true
    · rw [if_pos hw]
      by_cases ht : (t.ttype == ty) = true
      · rw [if_pos (show (w t && (t.ttype == ty)) = true by rw [hw, ht]; rfl)]
        simp only [List.map_cons, List.sum_cons, if_pos ht]
        rw [ih]
      · rw [if_neg (show ¬(w t && (t.ttype == ty)) = true by
          intro habs
          rw [Bool.and_eq_true] at habs
          exact ht habs.2)]
        simp only [List.map_cons, List.sum_cons, if_neg ht]
        rw [ih, zero_add]
    · rw [if_neg hw, if_neg (show ¬(w t && (t.ttype == ty)) = true by
        intro habs
        rw [Bool.and_eq_true] at habs
        exact hw habs.1)]
      exact ih

/-- C1: each of the three summaries returns income = windowed income sum,
expense = windowed expense sum and profit = income − expense exactly, and an
empty window yields `(0, 0, 0)`. -/
theorem claim_C1 (l : List Tx) (userId : Nat) (today : Int) (monthStart : Nat) :
    ((get_daily_summary l userId today).1
        = specTypeSum l (dailyWhere userId today) TType.income
      ∧ (get_daily_summary l userId today).2.1
        = specTypeSum l (dailyWhere userId today) TType.expense
      ∧ (get_daily_summary l userId today).2.2
        = (get_daily_summary l userId today).1 - (get_daily_summary l userId today).2.1)
    ∧ ((get_weekly_summary l userId today).1
        = specTypeSum l (weeklyWhere userId today) TType.income
      ∧ (get_weekly_summary l userId today).2.1
        = specTypeSum l (weeklyWhere userId today) TType.expense
      ∧ (get_weekly_summary l userId today).2.2
        = (get_weekly_summary l userId today).1 - (get_weekly_summary l userId today).2.1)
    ∧ ((get_monthly_summary l userId monthStart).1
        = specTypeSum l (monthlyWhere userId monthStart) TType.income
      ∧ (get_monthly_summary l userId monthStart).2.1
        = specTypeSum l (monthlyWhere userId monthStart) TType.expense
      ∧ (get_monthly_summary l userId monthStart).2.2
        = (get_monthly_summary l userId monthStart).1
          - (get_monthly_summary l userId monthStart).2.1)
    ∧ (l.filter (dailyWhere userId today) = []
        → get_daily_summary l userId today = (0, 0, 0))
    ∧ (l.filter (weeklyWhere userId today) = []
        → get_weekly_summary l userId today = (0, 0, 0))
    ∧ (l.filter (monthlyWhere userId monthStart) = []
        → get_monthly_summary l userId monthStart = (0, 0, 0)) := by
  refine ⟨⟨sqlCaseSum_filter l _ _, sqlCaseSum_filter l _ _, rfl⟩,
    ⟨sqlCaseSum_filter l _ _, sqlCaseSum_filter l _ _, rfl⟩,
    ⟨sqlCaseSum_filter l _ _, sqlCaseSum_filter l _ _, rfl⟩, ?_, ?_, ?_⟩
  · intro h
    simp [get_daily_summary, h, sqlCaseSum]
  · intro h
    simp [get_weekly_summary, h, sqlCaseSum]
  · intro h
    simp [get_monthly_summary, h, sqlCaseSum]

theorem claim_C1_witness :
    ([] : List Tx).filter (dailyWhere 1 0) = []
    ∧ get_daily_summary [] 1 0 = (0, 0, 0) :=
  ⟨by decide, (claim_C1 [] 1 0 0).2.2.2.1 (by decide)⟩

/-! ## Category breakdown (`get_expense_categories_summary`,
`db/database.py` lines 201-225)

`GROUP BY category` groups the expense rows by their category — one group
per distinct category value — and `ORDER BY total DESC` sorts the resulting
(category, total) pairs by total, descending. -/

/-- The distinct values of a list, in order of first occurrence (the groups
produced by `GROUP BY`). -/
def firstOccs : List String → List String
  | [] => []
  | c :: rest => c :: firstOccs (rest.filter (fun x => !(x == c)))
termination_by l => l.length
decreasing_by
  simp only [List.length_cons]
  exact Nat.lt_succ_of_le (List.length_filter_le _ _)

instance decRelDescSnd : DecidableRel (fun (p q : String × ℚ) => q.2 ≤ p.2) :=
  fun p q => inferInstanceAs (Decidable (q.2 ≤ p.2))

instance totalDescSnd : IsTotal (String × ℚ) (fun p q => q.2 ≤ p.2) :=
  ⟨fun a b => le_total b.2 a.2⟩

instance transDescSnd : IsTrans (String × ℚ) (fun p q => q.2 ≤ p.2) :=
  ⟨fun _ _ _ hab hbc => le_trans hbc hab⟩

/-- `get_expense_categories_summary`: select the user's expense rows, sum
the amounts grouped by category, and order the (category, total) pairs by
total descending. -/
def get_expense_categories_summary (l : List Tx) (userId : Nat) : List (String × ℚ) :=
  List.insertionSort (fun p q => q.2 ≤ p.2)
    ((firstOccs ((l.filter (fun t => t.userId == userId && t.ttype == TType.expense)).map
        (fun t => t.category))).map
      (fun c => (c,
        (((l.filter (fun t => t.userId == userId && t.ttype == TType.expense)).filter
            (fun t => t.category == c)).map (fun t => t.amount)).sum)))

theorem mem_firstOccs : ∀ (m : List String) (x : String), x ∈ firstOccs m ↔ x ∈ m
  | [], x => by simp [firstOccs]
  | c :: rest, x => by
    rw [firstOccs]
    constructor
    · intro hx
      rcases List.mem_cons.mp hx with rfl | hx
      · simp
      · have := (mem_firstOccs (rest.filter (fun y => !(y == c))) x).mp hx
        exact List.mem_cons_of_mem _ (List.mem_of_mem_filter this)
    · intro hx
      rcases List.mem_cons.mp hx with rfl | hx
      · simp
      · by_cases hxc : x = c
        · simp [hxc]
        · refine List.mem_cons_of_mem _
            ((mem_firstOccs (rest.filter (fun y => !(y == c))) x).mpr ?_)
          refine List.mem_filter.mpr ⟨hx, ?_⟩
          simp [hxc]
termination_by m _ => m.length
decreasing_by
  all_goals simp only [List.length_cons]
  all_goals exact Nat.lt_succ_of_le (List.length_filter_le _ _)

theorem firstOccs_nodup : ∀ (m : List String), (firstOccs m).Nodup
  | [] => by simp [firstOccs]
  | c :: rest => by
    rw [firstOccs]
    refine List.nodup_cons.mpr ⟨?_, firstOccs_nodup _⟩
    intro habs
    have := (mem_firstOccs _ c).mp habs
    have := (List.mem_filter.mp this).2
    simp at this
termination_by m => m.length
decreasing_by
  all_goals simp only [List.length_cons]
  all_goals exact Nat.lt_succ_of_le (List.length_filter_le _ _)

theorem sum_split (rows : List Tx) (p : Tx → Bool) :
    (rows.map (fun t => t.amount)).sum
      = ((rows.filter p).map (fun t => t.amount)).sum
        + ((rows.filter (fun t => !p t)).map (fun t => t.amount)).sum := by
  induction rows with
  | nil => simp
  | cons t ts ih =>
    by_cases hp : p t = true
    · rw [List.filter_cons, List.filter_cons, if_pos hp, if_neg (by simp [hp])]
      simp only [List.map_cons, List.sum_cons]
      rw [ih]
      ring
    · have hp' : p t = false := by simpa using hp
      rw [List.filter_cons, List.filter_cons, if_neg hp, if_pos (by simp [hp'])]
      simp only [List.map_cons, List.sum_cons]
      rw [ih]
      ring

theorem sum_fiberwise :
    ∀ (cats : List String) (rows : List Tx), cats.Nodup →
      (∀ t ∈ rows, t.category ∈ cats) →
      (cats.map (fun c =>
          ((rows.filter (fun t => t.category == c)).map (fun t => t.amount)).sum)).sum
        = (rows.map (fun t => t.amount)).sum := by
  intro cats
  induction cats with
  | nil =>
    intro rows _ hcov
    cases rows with
    | nil => simp
    | cons t ts => exact absurd (hcov t (by simp)) (by simp)
  | cons c cs ih =>
    intro rows hnd hcov
    have hnd' := List.nodup_cons.mp hnd
    have hfibers : ∀ c' ∈ cs,
        (rows.filter (fun t => !(t.category == c))).filter (fun t => t.category == c')
          = rows.filter (fun t => t.category == c') := by
      intro c' hc'
      have hne : c' ≠ c := fun habs => hnd'.1 (habs ▸ hc')
      rw [List.filter_filter]
      refine List.filter_congr ?_
      intro t _
      by_cases hx : t.category = c'
      · have hxc : ¬ t.category = c := fun habs => hne (by rw [← hx, habs])
        simp [hx, hxc, hne]
      · simp [hx]
    have hcov' : ∀ t ∈ rows.filter (fun t => !(t.category == c)), t.category ∈ cs := by
      intro t ht
      have hmem := List.mem_of_mem_filter ht
      have hflt := (List.mem_filter.mp ht).2
      have hne : t.category ≠ c := by simpa using hflt
      rcases List.mem_cons.mp (hcov t hmem) with h | h
      · exact absurd h hne
      · exact h
    have hmapeq : cs.map (fun c' =>
          ((rows.filter (fun t => t.category == c')).map (fun t => t.amount)).sum)
        = cs.map (fun c' =>
          (((rows.filter (fun t => !(t.category == c))).filter
              (fun t => t.category == c')).map (fun t => t.amount)).sum) := by
      refine List.map_congr_left ?_
      intro c' hc'
      rw [hfibers c' hc']
    simp only [List.map_cons, List.sum_cons]
    rw [hmapeq, ih (rows.filter (fun t => !(t.category == c))) hnd'.2 hcov']
    exact (sum_split rows (fun t => t.category == c)).symm

/-- C7: the category breakdown is sorted by total descending, its categories
are pairwise distinct, every expense category of the user appears, each total
is the exact sum of that category's expense amounts, and all totals sum to
the sum of all the user's expense amounts. -/
theorem claim_C7 (l : List Tx) (userId : Nat) :
    List.Sorted (fun p q : String × ℚ => q.2 ≤ p.2)
      (get_expense_categories_summary l userId)
    ∧ ((get_expense_categories_summary l userId).map Prod.fst).Nodup
    ∧ (∀ t ∈ l, t.userId = userId → t.ttype = TType.expense →
        t.category ∈ (get_expense_categories_summary l userId).map Prod.fst)
    ∧ (∀ p ∈ get_expense_categories_summary l userId,
        p.2 = (((l.filter (fun t => t.userId == userId && t.ttype == TType.expense)).filter
            (fun t => t.category == p.1)).map (fun t => t.amount)).sum)
    ∧ ((get_expense_categories_summary l userId).map Prod.snd).sum
        = ((l.filter (fun t => t.userId == userId && t.ttype == TType.expense)).map
            (fun t => t.amount)).sum := by
  have hperm := List.perm_insertionSort (fun p q : String × ℚ => q.2 ≤ p.2)
    ((firstOccs ((l.filter (fun t => t.userId == userId && t.ttype == TType.expense)).map
        (fun t => t.category))).map
      (fun c => (c,
        (((l.filter (fun t => t.userId == userId && t.ttype == TType.expense)).filter
            (fun t => t.category == c)).map (fun t => t.amount)).sum)))
  refine ⟨List.sorted_insertionSort _ _, ?_, ?_, ?_, ?_⟩
  · refine ((hperm.map Prod.fst).nodup_iff).mpr ?_
    rw [List.map_map]
    rw [show (Prod.fst ∘ fun c : String =>
        (c, (((l.filter (fun t => t.userId == userId && t.ttype == TType.expense)).filter
            (fun t => t.category == c)).map (fun t => t.amount)).sum))
        = fun c : String => c from rfl]
    rw [List.map_id']
    exact firstOccs_nodup _
  · intro t ht huid hty
    have hrow : t ∈ l.filter (fun t => t.userId == userId && t.ttype == TType.expense) :=
      List.mem_filter.mpr ⟨ht, by simp [huid, hty]⟩
    have hcat : t.category ∈ firstOccs ((l.filter
        (fun t => t.userId == userId && t.ttype == TType.expense)).map
          (fun t => t.category)) :=
      (mem_firstOccs _ _).mpr (List.mem_map.mpr ⟨t, hrow, rfl⟩)
    refine (hperm.map Prod.fst).mem_iff.mpr ?_
    rw [List.map_map]
    exact List.mem_map.mpr ⟨t.category, hcat, rfl⟩
  · intro p hp
    have hp2 : p ∈ (firstOccs ((l.filter
        (fun t => t.userId == userId && t.ttype == TType.expense)).map
          (fun t => t.category))).map
        (fun c => (c,
          (((l.filter (fun t => t.userId == userId && t.ttype == TType.expense)).filter
              (fun t => t.category == c)).map (fun t => t.amount)).sum)) :=
      hperm.mem_iff.mp hp
    obtain ⟨c, _, hc⟩ := List.mem_map.mp hp2
    rw [← hc]
  · refine Eq.trans ((hperm.map Prod.snd).sum_eq) ?_
    rw [List.map_map]
    refine Eq.trans ?_ (sum_fiberwise
      ((l.filter (fun t => t.userId == userId && t.ttype == TType.expense)).map
        (fun t => t.category) |> firstOccs)
      (l.filter (fun t => t.userId == userId && t.ttype == TType.expense))
      (firstOccs_nodup _)
      (fun t ht => (mem_firstOccs _ _).mpr (List.mem_map.mpr ⟨t, ht, rfl⟩)))
    rfl

theorem claim_C7_witness :
    (⟨7, TType.expense, 5, "аренда", "", 0, 0⟩ : Tx)
        ∈ [(⟨7, TType.expense, 5, "аренда", "", 0, 0⟩ : Tx)]
    ∧ (⟨7, TType.expense, 5, "аренда", "", 0, 0⟩ : Tx).category
        ∈ (get_expense_categories_summary [⟨7, TType.expense, 5, "аренда", "", 0, 0⟩] 7).map
            Prod.fst :=
  ⟨by simp,
   (claim_C7 [⟨7, TType.expense, 5, "аренда", "", 0, 0⟩] 7).2.2.1
     ⟨7, TType.expense, 5, "аренда", "", 0, 0⟩ (by simp) rfl rfl⟩

/-! ## Excel export (`generate_excel_report`, `db/database.py` lines 229-328)

The export assembles three datasets: the user's operations ordered by
`created_at` ascending, the category summary (the same query as
`get_expense_categories_summary`, duplicated in the source), and the
current-month totals computed by the same query as `get_monthly_summary`
(the `Прибыль` row is `m_income - m_expense`). -/

structure ExcelReport where
  operations : List Tx
  cat_list : List (String × ℚ)
  monthly : ℚ × ℚ × ℚ
  deriving Repr

instance decRelCreatedAt : DecidableRel (fun (a b : Tx) => a.createdAt ≤ b.createdAt) :=
  fun a b => inferInstanceAs (Decidable (a.createdAt ≤ b.createdAt))

def generate_excel_report (l : List Tx) (userId : Nat) (monthStart : Nat) : ExcelReport :=
  { operations := List.insertionSort (fun a b => a.createdAt ≤ b.createdAt)
      (l.filter (fun t => t.userId == userId)),
    cat_list := List.insertionSort (fun p q => q.2 ≤ p.2)
      ((firstOccs ((l.filter (fun t => t.userId == userId && t.ttype == TType.expense)).map
          (fun t => t.category))).map
        (fun c => (c,
          (((l.filter (fun t => t.userId == userId && t.ttype == TType.expense)).filter
              (fun t => t.category == c)).map (fun t => t.amount)).sum))),
    monthly :=
      (sqlCaseSum (l.filter (monthlyWhere userId monthStart)) TType.income,
       sqlCaseSum (l.filter (monthlyWhere userId monthStart)) TType.expense,
       sqlCaseSum (l.filter (monthlyWhere userId monthStart)) TType.income
         - sqlCaseSum (l.filter (monthlyWhere userId monthStart)) TType.expense) }

/-- C9: the current-month totals of the Excel export coincide with the
monthly summary triple for the same user at the same time, because both are
computed by the same query over the same window. -/
theorem claim_C9 (l : List Tx) (userId : Nat) (monthStart : Nat) :
    (generate_excel_report l userId monthStart).monthly
      = get_monthly_summary l userId monthStart := rfl

/-! ## User table and `add_transaction` (`db/database.py` lines 72-118)

`add_transaction` performs two physically separate writes, each on its own
connection with its own commit: first `add_user` (ensure the user row), then
the `INSERT INTO transactions`.  The state after the first commit is modelled
explicitly (`add_transaction_phase1`) because it is observable to readers. -/

structure UserRow where
  id : Nat
  tgUserId : Nat
  deriving DecidableEq, Repr

structure DB where
  users : List UserRow
  txs : List Tx
  deriving DecidableEq, Repr

/-- `get_user_id`: `SELECT id FROM users WHERE tg_user_id = ?`. -/
def get_user_id (db : DB) (tg : Nat) : Option Nat :=
  (db.users.find? (fun u => u.tgUserId == tg)).map (fun u => u.id)

/-- `add_user`: `INSERT ... ON CONFLICT (tg_user_id) DO NOTHING` /
`INSERT OR IGNORE` — the UNIQUE constraint on `tg_user_id` makes the insert
a no-op when a row with this external id already exists; the serial primary
key assigns a fresh internal id otherwise. -/
def add_user (db : DB) (tg : Nat) : DB :=
  if db.users.any (fun u => u.tgUserId == tg) then db
  else { db with users := db.users ++ [⟨db.users.length + 1, tg⟩] }

/-- State after the first committed write of `add_transaction` (lines
100-103): resolve the user, creating the row if absent. -/
def add_transaction_phase1 (db : DB) (tg : Nat) : DB :=
  match get_user_id db tg with
  | some _ => db
  | none => add_user db tg

/-- `add_transaction` run to completion: after the user row is ensured and
committed, a second connection inserts the transaction row and commits. -/
def add_transaction (db : DB) (tg : Nat) (ty : TType) (amount : ℚ)
    (category description : String) (day : Int) (ts : Nat) : DB :=
  match get_user_id (add_transaction_phase1 db tg) tg with
  | some uid => { add_transaction_phase1 db tg with
      txs := (add_transaction_phase1 db tg).txs
        ++ [⟨uid, ty, amount, category, description, day, ts⟩] }
  | none => add_transaction_phase1 db tg

theorem get_user_id_isSome_iff (db : DB) (tg : Nat) :
    (get_user_id db tg).isSome = true
      ↔ ∃ u ∈ db.users, (u.tgUserId == tg) = true := by
  unfold get_user_id
  cases hf : List.find? (fun u => u.tgUserId == tg) db.users with
  | none =>
    constructor
    · intro habs
      simp at habs
    · rintro ⟨u, hu, hp⟩
      exact absurd hp (List.find?_eq_none.mp hf u hu)
  | some u =>
    constructor
    · intro _
      exact ⟨u, List.mem_of_find?_eq_some hf,
        List.find?_some (p := fun (u : UserRow) => u.tgUserId == tg) hf⟩
    · intro _
      rfl

theorem get_user_id_add_user_isSome (db : DB) (tg : Nat) :
    (get_user_id (add_user db tg) tg).isSome = true := by
  rw [get_user_id_isSome_iff]
  unfold add_user
  by_cases h : db.users.any (fun u => u.tgUserId == tg) = true
  · rw [if_pos h]
    exact List.any_eq_true.mp h
  · rw [if_neg h]
    exact ⟨⟨db.users.length + 1, tg⟩, by simp, by simp⟩

theorem get_user_id_phase1_isSome (db : DB) (tg : Nat) :
    (get_user_id (add_transaction_phase1 db tg) tg).isSome = true := by
  unfold add_transaction_phase1
  cases h : get_user_id db tg with
  | some uid => simp [h]
  | none => exact get_user_id_add_user_isSome db tg

theorem phase1_txs (db : DB) (tg : Nat) :
    (add_transaction_phase1 db tg).txs = db.txs := by
  unfold add_transaction_phase1 add_user
  cases h : get_user_id db tg with
  | some uid => rfl
  | none =>
    by_cases ha : db.users.any (fun u => u.tgUserId == tg) = true
    · simp [ha]
    · simp [ha]

/-- Completed appends: the transaction row is recorded under the resolved
internal user id, on top of the phase-1 transaction log. -/
theorem add_transaction_txs (db : DB) (tg : Nat) (ty : TType) (amount : ℚ)
    (category description : String) (day : Int) (ts : Nat) :
    ∃ uid, get_user_id (add_transaction db tg ty amount category description day ts) tg
        = some uid
      ∧ (add_transaction db tg ty amount category description day ts).txs
        = db.txs ++ [⟨uid, ty, amount, category, description, day, ts⟩] := by
  obtain ⟨uid, huid⟩ := Option.isSome_iff_exists.mp (get_user_id_phase1_isSome db tg)
  refine ⟨uid, ?_, ?_⟩
  · unfold add_transaction
    rw [huid]
    exact huid
  · unfold add_transaction
    rw [huid]
    rw [phase1_txs]

theorem countP_users_add_user (db : DB) (tg : Nat)
    (h : db.users.countP (fun u => u.tgUserId == tg) ≤ 1) :
    (add_user db tg).users.countP (fun u => u.tgUserId == tg) = 1 := by
  unfold add_user
  by_cases ha : db.users.any (fun u => u.tgUserId == tg) = true
  · rw [if_pos ha]
    obtain ⟨u, hu, hp⟩ := List.any_eq_true.mp ha
    have hpos : 0 < db.users.countP (fun u => u.tgUserId == tg) :=
      List.countP_pos_iff.mpr ⟨u, hu, hp⟩
    omega
  · rw [if_neg ha]
    have hz : db.users.countP (fun u => u.tgUserId == tg) = 0 := by
      rw [List.countP_eq_zero]
      intro u hu
      intro hp
      exact ha (List.any_eq_true.mpr ⟨u, hu, hp⟩)
    simp [List.countP_append, hz]

theorem countP_users_add_transaction (db : DB) (tg : Nat) (ty : TType) (amount : ℚ)
    (category description : String) (day : Int) (ts : Nat)
    (h : db.users.countP (fun u => u.tgUserId == tg) ≤ 1) :
    (add_transaction db tg ty amount category description day ts).users.countP
      (fun u => u.tgUserId == tg) = 1 := by
  obtain ⟨uid, huid⟩ := Option.isSome_iff_exists.mp (get_user_id_phase1_isSome db tg)
  have husers : (add_transaction db tg ty amount category description day ts).users
      = (add_transaction_phase1 db tg).users := by
    unfold add_transaction
    rw [huid]
  rw [husers]
  unfold add_transaction_phase1
  cases hg : get_user_id db tg with
  | some uid2 =>
    obtain ⟨u, hu, hup⟩ : ∃ u ∈ db.users, (u.tgUserId == tg) = true := by
      unfold get_user_id at hg
      obtain ⟨u, hfind, _⟩ := Option.map_eq_some'.mp hg
      exact ⟨u, List.mem_of_find?_eq_some hfind,
        List.find?_some (p := fun (u : UserRow) => u.tgUserId == tg) hfind⟩
    have hpos : 0 < db.users.countP (fun u => u.tgUserId == tg) :=
      List.countP_pos_iff.mpr ⟨u, hu, hup⟩
    show db.users.countP (fun u => u.tgUserId == tg) = 1
    omega
  | none => exact countP_users_add_user db tg h

/-- C4 counterexample: starting from the empty database, the committed state
after the first physical write of `add_transaction` for external id `42`
already contains the user row while no transaction row exists — a
user-without-transaction state observable to readers between the two
commits (and permanent if execution stops there), contradicting the claimed
atomicity of `append`. -/
theorem claim_C4_counterexample :
    get_user_id (add_transaction_phase1 ⟨[], []⟩ 42) 42 = some 1
    ∧ (add_transaction_phase1 ⟨[], []⟩ 42).txs = []
    ∧ add_transaction_phase1 (⟨[], []⟩ : DB) 42 ≠ (⟨[], []⟩ : DB) := by
  refine ⟨rfl, rfl, ?_⟩
  intro habs
  have : (add_transaction_phase1 (⟨[], []⟩ : DB) 42).users = [] :=
    congrArg DB.users habs
  simp [add_transaction_phase1, add_user, get_user_id] at this

/-- C4 amended: an `add_transaction` that runs to completion does record the
transaction under an internal id resolved for the external id, the first
write changes no transaction row, and repeated appends for the same external
id keep exactly one user row (the uniqueness constraint); but the claim's
atomicity fails: between the two commits readers observe the user without
the transaction (see the counterexample). -/
theorem claim_C4 (db : DB) (tg : Nat) (ty : TType) (amount : ℚ)
    (category description : String) (day : Int) (ts : Nat) :
    (∃ uid,
      get_user_id (add_transaction db tg ty amount category description day ts) tg
          = some uid
      ∧ (add_transaction db tg ty amount category description day ts).txs
          = db.txs ++ [⟨uid, ty, amount, category, description, day, ts⟩])
    ∧ (add_transaction_phase1 db tg).txs = db.txs
    ∧ (db.users.countP (fun u => u.tgUserId == tg) ≤ 1 →
        (add_transaction db tg ty amount category description day ts).users.countP
          (fun u => u.tgUserId == tg) = 1) :=
  ⟨add_transaction_txs db tg ty amount category description day ts,
   phase1_txs db tg,
   fun h => countP_users_add_transaction db tg ty amount category description day ts h⟩

theorem claim_C4_witness :
    ([] : List UserRow).countP (fun u => u.tgUserId == 42) ≤ 1
    ∧ (add_transaction ⟨[], []⟩ 42 TType.income 5 "доход" "" 0 0).users.countP
        (fun u => u.tgUserId == 42) = 1 :=
  ⟨by decide,
   (claim_C4 ⟨[], []⟩ 42 TType.income 5 "доход" "" 0 0).2.2 (by decide)⟩

/-! ## Reports handler (`show_reports`, `main.py` lines 113-154) -/

/-- Outcome of the reports request: either one of the two empty-state
replies (`"Нет данных"`), or the full aggregated report. -/
inductive ReportResult
  | noData
  | report (daily weekly monthly : ℚ × ℚ × ℚ) (cats : List (String × ℚ))
  deriving DecidableEq, Repr

/-- `show_reports`: resolve the user (absent → empty-state); compute the
three summaries and the category breakdown; if the daily and weekly income
and expense totals are all zero, reply with the empty-state message;
otherwise reply with the aggregated report. -/
def show_reports (db : DB) (tg : Nat) (today : Int) (monthStart : Nat) : ReportResult :=
  match get_user_id db tg with
  | none => ReportResult.noData
  | some userId =>
    if (get_daily_summary db.txs userId today).1 = 0
        ∧ (get_daily_summary db.txs userId today).2.1 = 0
        ∧ (get_weekly_summary db.txs userId today).1 = 0
        ∧ (get_weekly_summary db.txs userId today).2.1 = 0 then
      ReportResult.noData
    else
      ReportResult.report (get_daily_summary db.txs userId today)
        (get_weekly_summary db.txs userId today)
        (get_monthly_summary db.txs userId monthStart)
        (get_expense_categories_summary db.txs userId)

/-- C3 counterexample: a user with one recorded transaction (an income of
100, eight days old, hence outside both the daily and the trailing-7-day
windows) receives the `NoData` empty-state response, although the claim
promises the aggregated report for every user with at least one
transaction. -/
theorem claim_C3_counterexample :
    show_reports ⟨[⟨1, 42⟩], [⟨1, TType.income, 100, "доход", "", -8, 0⟩]⟩ 42 0 100
      = ReportResult.noData
    ∧ (⟨[⟨1, 42⟩], [⟨1, TType.income, 100, "доход", "", -8, 0⟩]⟩ : DB).txs.length = 1 :=
  ⟨rfl, rfl⟩

/-- C3 amended: the reports request returns the empty-state response iff the
user row is absent (no transaction was ever recorded) **or** all four of the
daily/weekly income and expense totals are zero — which also happens for a
user whose transactions are all older than seven days. -/
theorem show_reports_eq_none {db : DB} {tg : Nat} {today : Int} {monthStart : Nat}
    (h : get_user_id db tg = none) :
    show_reports db tg today monthStart = ReportResult.noData := by
  unfold show_reports
  rw [h]

theorem show_reports_eq_some {db : DB} {tg : Nat} {today : Int} {monthStart : Nat}
    {userId : Nat} (h : get_user_id db tg = some userId) :
    show_reports db tg today monthStart
      = if (get_daily_summary db.txs userId today).1 = 0
            ∧ (get_daily_summary db.txs userId today).2.1 = 0
            ∧ (get_weekly_summary db.txs userId today).1 = 0
            ∧ (get_weekly_summary db.txs userId today).2.1 = 0 then
          ReportResult.noData
        else
          ReportResult.report (get_daily_summary db.txs userId today)
            (get_weekly_summary db.txs userId today)
            (get_monthly_summary db.txs userId monthStart)
            (get_expense_categories_summary db.txs userId) := by
  unfold show_reports
  rw [h]

theorem claim_C3 (db : DB) (tg : Nat) (today : Int) (monthStart : Nat) :
    show_reports db tg today monthStart = ReportResult.noData
      ↔ (get_user_id db tg = none
          ∨ ∃ userId, get_user_id db tg = some userId
              ∧ (get_daily_summary db.txs userId today).1 = 0
              ∧ (get_daily_summary db.txs userId today).2.1 = 0
              ∧ (get_weekly_summary db.txs userId today).1 = 0
              ∧ (get_weekly_summary db.txs userId today).2.1 = 0) := by
  cases hg : get_user_id db tg with
  | none =>
    rw [show_reports_eq_none hg]
    simp
  | some userId =>
    rw [show_reports_eq_some hg]
    by_cases hc : (get_daily_summary db.txs userId today).1 = 0
        ∧ (get_daily_summary db.txs userId today).2.1 = 0
        ∧ (get_weekly_summary db.txs userId today).1 = 0
        ∧ (get_weekly_summary db.txs userId today).2.1 = 0
    · rw [if_pos hc]
      constructor
      · intro _
        exact Or.inr ⟨userId, rfl, hc.1, hc.2.1, hc.2.2.1, hc.2.2.2⟩
      · intro _
        rfl
    · rw [if_neg hc]
      constructor
      · intro habs
        exact absurd habs (by simp)
      · rintro (h | ⟨userId2, huid, h1, h2, h3, h4⟩)
        · simp at h
        · have heq : userId2 = userId := (Option.some.inj huid).symm
          subst heq
          exact absurd ⟨h1, h2, h3, h4⟩ hc

/-! ## Conversation state machine (`main.py` lines 27-109)

`FinanceStates` plus the implicit idle state (no FSM state set).  A session
holds the current state and the partially collected data (the chosen expense
category, stored by `state.update_data`); `state.clear()` resets both. -/

inductive ConvState
  | idle
  | waiting_for_income_amount
  | waiting_for_expense_amount
  | waiting_for_expense_category
  deriving DecidableEq, Repr

structure Session where
  state : ConvState
  category : Option String
  deriving DecidableEq, Repr

def EXPENSE_CATEGORIES : List String :=
  ["продукты", "персонал", "аренда", "коммуналка", "реклама", "прочее"]

/-- `state.clear()`: back to idle with no stored data. -/
def clearedSession : Session :=
  { state := ConvState.idle, category := none }

/-- `add_expense_category` handler (lines 87-94): an input outside the fixed
category list is re-prompted with the session untouched; an exact match is
stored and the session advances to the amount prompt. -/
def add_expense_category (s : Session) (text : String) : Session :=
  if text ∈ EXPENSE_CATEGORIES then
    { state := ConvState.waiting_for_expense_amount, category := some text }
  else s

/-- `add_income_amount` handler (lines 67-78): parse the amount, reject
non-positive values, append the income transaction and clear the session;
any failure is caught, leaving session and database unchanged. -/
def add_income_amount (s : Session) (db : DB) (tg : Nat) (text : String)
    (day : Int) (ts : Nat) : Session × DB :=
  match parse_amount text with
  | none => (s, db)
  | some amount =>
    if amount ≤ 0 then (s, db)
    else (clearedSession,
      add_transaction db tg TType.income amount "доход" "" day ts)

/-- `add_expense_amount` handler (lines 96-109): parse the amount, reject
non-positive values, read the stored category (its absence raises inside the
same `try`), append the expense transaction and clear the session; any
failure leaves session and database unchanged. -/
def add_expense_amount (s : Session) (db : DB) (tg : Nat) (text : String)
    (day : Int) (ts : Nat) : Session × DB :=
  match parse_amount text with
  | none => (s, db)
  | some amount =>
    if amount ≤ 0 then (s, db)
    else
      match s.category with
      | none => (s, db)
      | some cat => (clearedSession,
          add_transaction db tg TType.expense amount cat "" day ts)

/-- C2: in the category-selection state, any input outside the configured
category list leaves the session unchanged (still awaiting a category), and
an exact match of a configured category advances to the amount state with
the matched category stored. -/
theorem claim_C2 (s : Session) (text : String)
    (hstate : s.state = ConvState.waiting_for_expense_category) :
    (text ∉ EXPENSE_CATEGORIES →
      add_expense_category s text = s
      ∧ (add_expense_category s text).state = ConvState.waiting_for_expense_category)
    ∧ (text ∈ EXPENSE_CATEGORIES →
      (add_expense_category s text).state = ConvState.waiting_for_expense_amount
      ∧ (add_expense_category s text).category = some text) := by
  constructor
  · intro h
    unfold add_expense_category
    rw [if_neg h]
    exact ⟨rfl, hstate⟩
  · intro h
    unfold add_expense_category
    rw [if_pos h]
    exact ⟨rfl, rfl⟩

theorem claim_C2_witness :
    ((add_expense_category ⟨ConvState.waiting_for_expense_category, none⟩ "аренда").state
        = ConvState.waiting_for_expense_amount
      ∧ (add_expense_category ⟨ConvState.waiting_for_expense_category, none⟩ "аренда").category
        = some "аренда")
    ∧ (add_expense_category ⟨ConvState.waiting_for_expense_category, none⟩ "зарплата"
        = ⟨ConvState.waiting_for_expense_category, none⟩
      ∧ (add_expense_category ⟨ConvState.waiting_for_expense_category, none⟩ "зарплата").state
        = ConvState.waiting_for_expense_category) :=
  ⟨(claim_C2 ⟨ConvState.waiting_for_expense_category, none⟩ "аренда" rfl).2 (by decide),
   (claim_C2 ⟨ConvState.waiting_for_expense_category, none⟩ "зарплата" rfl).1 (by decide)⟩

theorem add_income_amount_none {s : Session} {db : DB} {tg : Nat} {text : String}
    {day : Int} {ts : Nat} (hp : parse_amount text = none) :
    add_income_amount s db tg text day ts = (s, db) := by
  unfold add_income_amount
  rw [hp]

theorem add_income_amount_some {s : Session} {db : DB} {tg : Nat} {text : String}
    {day : Int} {ts : Nat} {amount : ℚ} (hp : parse_amount text = some amount) :
    add_income_amount s db tg text day ts
      = if amount ≤ 0 then (s, db)
        else (clearedSession,
          add_transaction db tg TType.income amount "доход" "" day ts) := by
  unfold add_income_amount
  rw [hp]

theorem add_expense_amount_none {s : Session} {db : DB} {tg : Nat} {text : String}
    {day : Int} {ts : Nat} (hp : parse_amount text = none) :
    add_expense_amount s db tg text day ts = (s, db) := by
  unfold add_expense_amount
  rw [hp]

theorem add_expense_amount_some {s : Session} {db : DB} {tg : Nat} {text : String}
    {day : Int} {ts : Nat} {amount : ℚ} (hp : parse_amount text = some amount) :
    add_expense_amount s db tg text day ts
      = if amount ≤ 0 then (s, db)
        else
          match s.category with
          | none => (s, db)
          | some cat => (clearedSession,
              add_transaction db tg TType.expense amount cat "" day ts) := by
  unfold add_expense_amount
  rw [hp]

/-- C8: both amount handlers only ever append transactions with a strictly
positive amount; whenever the input fails to parse, or parses to a value
`≤ 0`, the handler changes nothing: no transaction is appended and the
session stays in the same awaiting state. -/
theorem claim_C8 (s : Session) (db : DB) (tg : Nat) (text : String)
    (day : Int) (ts : Nat) :
    (∀ t ∈ (add_income_amount s db tg text day ts).2.txs, t ∈ db.txs ∨ 0 < t.amount)
    ∧ (∀ t ∈ (add_expense_amount s db tg text day ts).2.txs, t ∈ db.txs ∨ 0 < t.amount)
    ∧ (parse_amount text = none →
        add_income_amount s db tg text day ts = (s, db)
        ∧ add_expense_amount s db tg text day ts = (s, db))
    ∧ (∀ a, parse_amount text = some a → a ≤ 0 →
        add_income_amount s db tg text day ts = (s, db)
        ∧ add_expense_amount s db tg text day ts = (s, db)) := by
  refine ⟨?_, ?_, ?_, ?_⟩
  · intro t ht
    cases hp : parse_amount text with
    | none =>
      rw [add_income_amount_none hp] at ht
      exact Or.inl ht
    | some amount =>
      rw [add_income_amount_some hp] at ht
      by_cases hle : amount ≤ 0
      · rw [if_pos hle] at ht
        exact Or.inl ht
      · rw [if_neg hle] at ht
        obtain ⟨uid, _, htxs⟩ :=
          add_transaction_txs db tg TType.income amount "доход" "" day ts
        have ht2 : t ∈ db.txs
            ++ [⟨uid, TType.income, amount, "доход", "", day, ts⟩] := by
          rw [← htxs]
          exact ht
        rcases List.mem_append.mp ht2 with h | h
        · exact Or.inl h
        · rcases List.mem_cons.mp h with rfl | h
          · exact Or.inr (by simpa using lt_of_not_le hle)
          · simp at h
  · intro t ht
    cases hp : parse_amount text with
    | none =>
      rw [add_expense_amount_none hp] at ht
      exact Or.inl ht
    | some amount =>
      rw [add_expense_amount_some hp] at ht
      by_cases hle : amount ≤ 0
      · rw [if_pos hle] at ht
        exact Or.inl ht
      · rw [if_neg hle] at ht
        cases hcat : s.category with
        | none =>
          rw [hcat] at ht
          exact Or.inl ht
        | some cat =>
          rw [hcat] at ht
          obtain ⟨uid, _, htxs⟩ :=
            add_transaction_txs db tg TType.expense amount cat "" day ts
          have ht2 : t ∈ db.txs
              ++ [⟨uid, TType.expense, amount, cat, "", day, ts⟩] := by
            rw [← htxs]
            exact ht
          rcases List.mem_append.mp ht2 with h | h
          · exact Or.inl h
          · rcases List.mem_cons.mp h with rfl | h
            · exact Or.inr (by simpa using lt_of_not_le hle)
            · simp at h
  · intro hp
    exact ⟨add_income_amount_none hp, add_expense_amount_none hp⟩
  · intro a hp hle
    rw [add_income_amount_some hp, add_expense_amount_some hp, if_pos hle, if_pos hle]
    exact ⟨rfl, rfl⟩

theorem claim_C8_witness :
    parse_amount "0" = some 0
    ∧ (add_income_amount ⟨ConvState.waiting_for_income_amount, none⟩ ⟨[], []⟩ 42 "0" 0 0
        = (⟨ConvState.waiting_for_income_amount, none⟩, ⟨[], []⟩)
      ∧ add_expense_amount ⟨ConvState.waiting_for_income_amount, none⟩ ⟨[], []⟩ 42 "0" 0 0
        = (⟨ConvState.waiting_for_income_amount, none⟩, ⟨[], []⟩)) :=
  ⟨by rfl,
   (claim_C8 ⟨ConvState.waiting_for_income_amount, none⟩ ⟨[], []⟩ 42 "0" 0 0).2.2.2
     0 (by rfl) (by norm_num)⟩

end FinanceBot
